import Mathlib

/-!
Verification of the cleakr diagnostic parser (src/python/cleakr_analysis.py).

The Python module parses clang-tidy output: a compiled regular expression
recognises diagnostic header lines, a line-by-line loop groups a header with
its continuation lines into blocks, deduplicates emitted records by
(file, zero-based line), extracts a best-effort variable name from the
block's combined text via an ordered list of regex strategies, annotates the
record with AST context, and hands the records to an LLM summariser.

The embedding below translates that code to Lean.  Python's `re` patterns are
translated into explicit scanning functions whose behaviour coincides with
the backtracking semantics of the concrete patterns used in the source (the
relevant determinism arguments are noted at each definition).  Character
classes (\d, \w, \s) and case folding are modelled over ASCII, which covers
every character class member that clang diagnostics produce; Python's
unicode extensions of these classes are not exercised by the claims.
Effectful library calls (the OpenAI chat completion and `json.loads`) are
modelled by passing the outcome of the call in as an explicit argument.
-/

namespace Cleakr

/-! ### Character classes (ASCII models of Python's \d, \w, \s) -/

/-- ASCII model of the regex class `\d`. -/
def isDigitChar (c : Char) : Bool := c.isDigit

/-- ASCII model of the regex class `\w` (alphanumeric or underscore). -/
def isWordChar (c : Char) : Bool := c.isAlphanum || c == '_'

/-- ASCII model of the regex class `\s`. -/
def isSpaceChar (c : Char) : Bool :=
  c == ' ' || c == '\t' || c == '\n' || c == '\r' || c == '\x0b' || c == '\x0c'

/-- Numeric value of a digit string, as Python's `int` on a `\d+` capture. -/
def digitsToNat (l : List Char) : Nat :=
  l.foldl (fun acc c => 10 * acc + (c.toNat - 48)) 0

/-- Lower-cases a character list (ASCII model of `re.IGNORECASE` folding). -/
def toLowerList (l : List Char) : List Char := l.map Char.toLower

/-- Boolean substring test: `infixCheck nd hay` decides whether `nd` occurs
contiguously inside `hay` (Python's `nd in hay` for strings). -/
def infixCheck (nd : List Char) : List Char → Bool
  | [] => nd.isEmpty
  | c :: rest => nd.isPrefixOf (c :: rest) || infixCheck nd rest

/-! ### Python `str.splitlines` and `"\n".join`

`splitlines` is modelled for the separators `\n`, `\r\n` and `\r`; Python
additionally treats a handful of exotic control characters as boundaries,
which clang-tidy output does not contain. A trailing separator does not
produce a final empty line, and the empty string yields no lines. -/

def splitlinesCore (cur : List Char) : List Char → List (List Char)
  | [] => [cur.reverse]
  | '\r' :: '\n' :: rest =>
      cur.reverse :: (if rest = [] then [] else splitlinesCore [] rest)
  | '\n' :: rest =>
      cur.reverse :: (if rest = [] then [] else splitlinesCore [] rest)
  | '\r' :: rest =>
      cur.reverse :: (if rest = [] then [] else splitlinesCore [] rest)
  | c :: rest => splitlinesCore (c :: cur) rest

/-- Python `s.splitlines()`. -/
def splitlines (s : String) : List String :=
  match s.data with
  | [] => []
  | l => (splitlinesCore [] l).map String.mk

/-- Python `"\n".join(lines)`. -/
def joinNL : List String → String
  | [] => ""
  | [s] => s
  | s :: rest => s ++ "\n" ++ joinNL rest

/-! ### The header pattern (src lines 96-99)

    ^(.*?):(\d+):(\d+):\s+(warning|note|error):\s.*?(leak|malloc|free|memory)

compiled with `re.IGNORECASE` and applied with `pattern.match` (anchored at
the start of the line).  The translation makes the backtracking explicit:

* `(.*?)` is non-greedy, so the engine tries file prefixes of increasing
  length; `.` does not match a newline, so the search stops at `\n`.
* each `(\d+):` is deterministic: a shorter-than-maximal digit run is
  followed by a digit, never by `:`, so only the maximal run can succeed;
* `\s+(warning|note|error)`: a shorter-than-maximal whitespace run is
  followed by whitespace, which no severity word starts with, so only the
  maximal run can succeed; the three severity alternatives are mutually
  non-prefix so trying them in order is deterministic;
* `\s.*?(leak|malloc|free|memory)` succeeds exactly when one whitespace
  character follows the severity colon and some keyword occurs in the text
  after it before any newline (`.` again excludes `\n`). -/

/-- The keyword alternatives of group 5, in the source's order. -/
def keywordPatterns : List (List Char) :=
  ["leak".toList, "malloc".toList, "free".toList, "memory".toList]

/-- Case-insensitive keyword gate: a keyword occurs in `l` before any
newline.  Case-insensitivity comes from the pattern's IGNORECASE flag. -/
def hasKeyword (l : List Char) : Bool :=
  keywordPatterns.any fun kw => infixCheck kw (toLowerList (l.takeWhile (· != '\n')))

/-- Case-insensitive literal match of `p` (given lower-case) against the
head of the text; returns the rest of the text on success. -/
def ciStarts : List Char → List Char → Option (List Char)
  | [], l => some l
  | _ :: _, [] => none
  | p :: ps, c :: cs => if c.toLower = p then ciStarts ps cs else none

/-- The `(warning|note|error):` alternatives, tried in the pattern's order. -/
def sevMatch (l : List Char) : Option (List Char) :=
  match ciStarts "warning:".toList l with
  | some r => some r
  | none =>
    match ciStarts "note:".toList l with
    | some r => some r
    | none => ciStarts "error:".toList l

/-- Matches `(\d+):` — a non-empty digit run then a colon — returning the
numeric capture and the rest.  The greedy `\d+` is deterministic here: a
shorter-than-maximal run is followed by a digit, never by `:`. -/
def expectDigitsColon (l : List Char) : Option (Nat × List Char) :=
  if l.takeWhile isDigitChar = [] then none
  else if (l.dropWhile isDigitChar).head? = some ':' then
    some (digitsToNat (l.takeWhile isDigitChar), (l.dropWhile isDigitChar).tail)
  else none

/-- Matches `\s+(warning|note|error):`, returning the rest.  The greedy
`\s+` is deterministic: a shorter-than-maximal whitespace run is followed by
whitespace, which no severity word starts with. -/
def expectWsSev (l : List Char) : Option (List Char) :=
  if l.takeWhile isSpaceChar = [] then none
  else sevMatch (l.dropWhile isSpaceChar)

/-- Matches `(\d+):(\d+):\s+(warning|note|error):\s.*?(keyword)` against the
text following the file group's terminating colon, returning the numeric
line and column captures. -/
def restMatch (l : List Char) : Option (Nat × Nat) :=
  match expectDigitsColon l with
  | none => none
  | some (n1, l2) =>
    match expectDigitsColon l2 with
    | none => none
    | some (n2, l3) =>
      match expectWsSev l3 with
      | none => none
      | some l5 =>
        match l5.head? with
        | none => none
        | some ch => if isSpaceChar ch && hasKeyword l5.tail then some (n1, n2) else none

/-- Non-greedy search for the file group: the accumulated prefix `acc` grows
one character at a time; at each colon the rest of the pattern is tried, and
the first success wins (leftmost-shortest file, as `(.*?)` backtracks).
A newline aborts the search since `.` cannot match it. -/
def findHeaderSplit : List Char → List Char → Option (String × Nat × Nat)
  | _, [] => none
  | acc, c :: rest =>
    if c = ':' then
      match restMatch rest with
      | some (n, col) => some (String.mk acc, n, col)
      | none => findHeaderSplit (acc ++ [c]) rest
    else if c = '\n' then none
    else findHeaderSplit (acc ++ [c]) rest

/-- `pattern.match(line)` for the compiled header pattern, returning the
captures the source uses: `(group(1), int(group(2)), int(group(3)))`. -/
def headerMatch (line : String) : Option (String × Nat × Nat) :=
  findHeaderSplit [] line.data

/-! ### extract_var_name (src lines 33-48)

Three patterns tried in order with `re.search` (no IGNORECASE); the first
match wins and its first capture group is returned, else `"unknown"`. -/

/-- Search for `'([^']+)'`: the first quote followed by a non-empty run of
non-quotes and a closing quote; the capture is that run.  `[^']+` is greedy
but deterministic: a shorter run is followed by a non-quote. -/
def quotedCore : List Char → Option (List Char)
  | [] => none
  | c :: rest =>
    if c = '\x27' then
      let run := rest.takeWhile (· != '\x27')
      if run ≠ [] ∧ rest.dropWhile (· != '\x27') ≠ [] then some run
      else quotedCore rest
    else quotedCore rest

/-- The `(malloc|calloc|realloc)` alternatives of the declaration pattern. -/
def allocFns : List (List Char) := ["malloc".toList, "calloc".toList, "realloc".toList]

/-- Does one of the allocator names start here?  (Nothing follows the
alternation in the pattern, so a prefix occurrence suffices.) -/
def allocStartsAt (l : List Char) : Bool := allocFns.any fun f => f.isPrefixOf l

/-- After the leading `\w+` run of `\w+\s*\*?\s*(\w+)\s*=\s*(malloc|calloc|realloc)`:
matches `\s*\*?\s*(\w+)\s*=\s*(alloc)` and returns the `(\w+)` capture.
Deterministic for the same reasons as the header pattern: each `\s*` run is
maximal (a shorter run is followed by whitespace where `*`, `\w` or `=` is
required), `\*?` must consume a present `*` (otherwise `(\w+)` immediately
fails on it), and `(\w+)` is the maximal word run (a shorter one is followed
by a word character where `=` is required). -/
def allocTail1 (l : List Char) : Option (List Char) :=
  let l2 := match l.dropWhile isSpaceChar with
    | '*' :: t => t
    | l1 => l1
  let l3 := l2.dropWhile isSpaceChar
  match l3 with
  | d :: _ =>
    if isWordChar d then
      let r2 := l3.takeWhile isWordChar
      match (l3.dropWhile isWordChar).dropWhile isSpaceChar with
      | '=' :: t => if allocStartsAt (t.dropWhile isSpaceChar) then some r2 else none
      | _ => none
    else none
  | [] => none

/-- Checks `\s*=\s*(malloc|calloc|realloc)` directly after the leading word
run.  Used when the engine backtracks the leading `\w+` one character: the
`(\w+)` capture then takes the final character of the run and the rest of
the pattern continues after the run. -/
def allocTail2 (l : List Char) : Bool :=
  match l.dropWhile isSpaceChar with
  | '=' :: t => allocStartsAt (t.dropWhile isSpaceChar)
  | _ => false

/-- Search for `\w+\s*\*?\s*(\w+)\s*=\s*(malloc|calloc|realloc)`.  At each
word-run start the engine first keeps the whole run for the leading `\w+`
(capture found by `allocTail1` after the run); failing that it backtracks
the leading `\w+` by one character, giving a one-character capture at the
run's end (`allocTail2`); both need the run intact, so on failure the scan
resumes one character later. -/
def allocCore : List Char → Option (List Char)
  | [] => none
  | c :: rest =>
    if isWordChar c then
      let run := c :: rest.takeWhile isWordChar
      let afterRun := rest.dropWhile isWordChar
      match allocTail1 afterRun with
      | some r2 => some r2
      | none =>
        if 2 ≤ run.length ∧ allocTail2 afterRun = true then
          match run.getLast? with
          | some lastc => some [lastc]
          | none => none
        else allocCore rest
    else allocCore rest

/-- Search for `(\w+)\s*=\s*\w+`: at each word-run start, the capture is the
maximal word run, followed by `\s*`, `=`, `\s*` and at least one word
character (all deterministic as above). -/
def assignCore : List Char → Option (List Char)
  | [] => none
  | c :: rest =>
    if isWordChar c then
      let run := c :: rest.takeWhile isWordChar
      match (rest.dropWhile isWordChar).dropWhile isSpaceChar with
      | '=' :: t =>
        match t.dropWhile isSpaceChar with
        | d :: _ => if isWordChar d then some run else assignCore rest
        | [] => assignCore rest
      | _ => assignCore rest
    else assignCore rest

/-- `re.search(r"'([^']+)'", s)`, first capture group. -/
def matchQuoted (s : String) : Option String := (quotedCore s.data).map String.mk

/-- `re.search(r"\w+\s*\*?\s*(\w+)\s*=\s*(malloc|calloc|realloc)", s)`, group 1. -/
def matchAllocDecl (s : String) : Option String := (allocCore s.data).map String.mk

/-- `re.search(r"(\w+)\s*=\s*\w+", s)`, group 1. -/
def matchAssign (s : String) : Option String := (assignCore s.data).map String.mk

/-- The source's `patterns` list (src lines 34-41), in order. -/
def var_name_patterns : List (String → Option String) :=
  [matchQuoted, matchAllocDecl, matchAssign]

/-- The source's `for pattern in patterns` loop: first match wins. -/
def firstSome : List (String → Option String) → String → Option String
  | [], _ => none
  | p :: ps, s =>
    match p s with
    | some v => some v
    | none => firstSome ps s

/-- `extract_var_name` (src lines 33-48). -/
def extract_var_name (raw_message : String) : String :=
  match firstSome var_name_patterns raw_message with
  | some v => v
  | none => "unknown"

/-! ### extract_ast_context (src lines 51-86) -/

/-- Python's `sub in line` substring test. -/
def strContains (line sub : String) : Bool := infixCheck sub.data line.data

/-- Python's `line.split("'")`. -/
def splitOnQuote : List Char → List (List Char)
  | [] => [[]]
  | c :: rest =>
    if c = '\x27' then [] :: splitOnQuote rest
    else
      match splitOnQuote rest with
      | [] => [[c]]
      | h :: t => (c :: h) :: t

/-- `is_function_decl` (src lines 60-61). -/
def is_function_decl (line : String) : Bool :=
  strContains line "FunctionDecl" && strContains line "\x27"

/-- `is_var_decl` (src lines 63-64); `var_name` is the enclosing argument. -/
def is_var_decl (var_name line : String) : Bool :=
  strContains line "VarDecl" && strContains line var_name && strContains line "\x27"

/-- `allocation_funcs` (src line 58). -/
def allocation_funcs : List String := ["malloc", "calloc", "free"]

/-- `is_allocation_call` (src lines 66-67). -/
def is_allocation_call (line : String) : Bool :=
  strContains line "CallExpr" && allocation_funcs.any fun f => strContains line f

/-- Python `"; ".join(l)`. -/
def joinSemi : List String → String
  | [] => ""
  | [s] => s
  | s :: rest => s ++ "; " ++ joinSemi rest

/-- `extract_ast_context` (src lines 51-86).  The `for line in lines` loop
appending to `context_info` becomes a left fold. -/
def extract_ast_context (ast_output : String) (line_num : Nat) (var_name : String) : String :=
  if ast_output = "" then "No AST context"
  else
    let lines := splitlines ast_output
    let line_target := "line:" ++ toString line_num
    let context_info := lines.foldl (fun acc line =>
      if !(strContains line line_target) then acc
      else if is_function_decl line then
        let parts := splitOnQuote line.data
        acc ++ ["function: " ++ String.mk (parts.getD 1 [])]
      else if is_var_decl var_name line then
        let parts := splitOnQuote line.data
        if 2 < parts.length then
          acc ++ ["type: " ++ String.mk (parts.getD (parts.length - 2) [])]
        else acc
      else if is_allocation_call line then acc ++ ["allocation call found"]
      else acc) []
    if context_info = [] then "Basic AST info available" else joinSemi context_info

/-! ### extract_leaks (src lines 89-146) -/

/-- One emitted leak entry (the dict built at src lines 114-121). -/
structure LeakRecord where
  filename : String
  lnum : Int
  col : Int
  raw_message : String
  var_name : String
  ast_context : String
deriving DecidableEq

/-- Builds the `leak_entry` dict of `save_current_block` (src lines 111-121)
from a block's location and accumulated lines. -/
def mkLeakEntry (ast_output file : String) (line_num col_num : Nat)
    (block : List String) : LeakRecord :=
  let combined_msg := joinNL block
  let var_name := extract_var_name combined_msg
  { filename := file
    lnum := (line_num : Int) - 1
    col := (col_num : Int) - 1
    raw_message := combined_msg
    var_name := var_name
    ast_context := extract_ast_context ast_output line_num var_name }

/-- The mutable state of the `extract_leaks` loop: `leaks`, `seen_lines`
(a set, modelled as a membership list), `current_block`, `current_location`. -/
structure ParseState where
  leaks : List LeakRecord
  seen_lines : List (String × Int)
  current_block : List String
  current_location : Option (String × Nat × Nat)
deriving DecidableEq

/-- `save_current_block` (src lines 101-122). -/
def save_current_block (ast_output : String) (st : ParseState) : ParseState :=
  if st.current_block = [] then st
  else
    match st.current_location with
    | none => st
    | some (file, line_num, col_num) =>
      let line_key : String × Int := (file, (line_num : Int) - 1)
      if line_key ∈ st.seen_lines then st
      else
        { st with
          seen_lines := line_key :: st.seen_lines
          leaks := st.leaks ++ [mkLeakEntry ast_output file line_num col_num st.current_block] }

/-- The body of the `for line in lines` loop (src lines 124-142). -/
def stepLine (ast_output : String) (st : ParseState) (line : String) : ParseState :=
  match headerMatch line with
  | none =>
    if st.current_block = [] then st
    else { st with current_block := st.current_block ++ [line] }
  | some (file, line_num, col_num) =>
    let new_location := (file, line_num, col_num)
    let st1 :=
      match st.current_location with
      | none => st
      | some loc =>
        if new_location ≠ loc then
          { save_current_block ast_output st with current_block := [] }
        else st
    { st1 with
      current_location := some new_location
      current_block := st1.current_block ++ [line] }

/-- `extract_leaks` (src lines 89-146): fold the loop body over the lines of
the clang output, then the final `save_current_block()` call (src line 144). -/
def extract_leaks (clang_output ast_output : String) : List LeakRecord :=
  let st := (splitlines clang_output).foldl (stepLine ast_output) ⟨[], [], [], none⟩
  (save_current_block ast_output st).leaks

/-- The state of the `extract_leaks` loop after all lines have been
processed, just before the final `save_current_block()` call: a stream
"ends while a block is still open" exactly when this state's
`current_block` is non-empty (and its `current_location` is then the open
block's header location). -/
def finalState (clang_output ast_output : String) : ParseState :=
  (splitlines clang_output).foldl (stepLine ast_output) ⟨[], [], [], none⟩

/-! ### Specification-side block decomposition

Follows the spec's notion of a block (glossary: the accumulated raw text
from a header to just before the next header or end of stream).  The same
control flow as `extract_leaks`, but every closed block is collected, with
no deduplication; used to state that `extract_leaks` emits exactly the
first block of each `(file, zero-based line)` key. -/

structure BlockState where
  closed : List ((String × Nat × Nat) × List String)
  current_block : List String
  current_location : Option (String × Nat × Nat)
deriving DecidableEq

/-- The block (if any) that a close at state `st` would produce. -/
def closeBlock (st : BlockState) : List ((String × Nat × Nat) × List String) :=
  if st.current_block = [] then []
  else
    match st.current_location with
    | none => []
    | some loc => [(loc, st.current_block)]

/-- Block-level analogue of `stepLine`: identical control flow, closed
blocks are appended unconditionally. -/
def blockStep (st : BlockState) (line : String) : BlockState :=
  match headerMatch line with
  | none =>
    if st.current_block = [] then st
    else { st with current_block := st.current_block ++ [line] }
  | some (file, line_num, col_num) =>
    let new_location := (file, line_num, col_num)
    let st1 :=
      match st.current_location with
      | none => st
      | some loc =>
        if new_location ≠ loc then
          { st with closed := st.closed ++ closeBlock st, current_block := [] }
        else st
    { st1 with
      current_location := some new_location
      current_block := st1.current_block ++ [line] }

/-- Runs the block-level loop from an open block `blk` at `loc`. -/
def runBlocks (lines : List String) (blk : List String)
    (loc : Option (String × Nat × Nat)) : BlockState :=
  lines.foldl blockStep ⟨[], blk, loc⟩

/-- All blocks of a line stream, starting from an open block `blk` at `loc`. -/
def blocksFrom (lines : List String) (blk : List String)
    (loc : Option (String × Nat × Nat)) : List ((String × Nat × Nat) × List String) :=
  (runBlocks lines blk loc).closed ++ closeBlock (runBlocks lines blk loc)

/-- All blocks of a line stream. -/
def blocksOfLines (lines : List String) : List ((String × Nat × Nat) × List String) :=
  blocksFrom lines [] none

/-- The record a block would be emitted as. -/
def recordOfBlock (ast_output : String) :
    ((String × Nat × Nat) × List String) → LeakRecord
  | ((file, line_num, col_num), blk) => mkLeakEntry ast_output file line_num col_num blk

/-- The dedup key of an emitted record: `(file, zero-based line)`. -/
def keyOf (r : LeakRecord) : String × Int := (r.filename, r.lnum)

/-- The dedup key a block would be emitted under. -/
def blockKey : ((String × Nat × Nat) × List String) → String × Int
  | ((file, line_num, _), _) => (file, (line_num : Int) - 1)

/-- Keep the first record of each key, given keys already taken. -/
def dedupAux (seen : List (String × Int)) : List LeakRecord → List LeakRecord
  | [] => []
  | r :: rs =>
    if keyOf r ∈ seen then dedupAux seen rs
    else r :: dedupAux (keyOf r :: seen) rs

/-- Projection of a record without its `ast_context` field. -/
def stripAst (r : LeakRecord) : String × Int × Int × String × String :=
  (r.filename, r.lnum, r.col, r.raw_message, r.var_name)

/-! ### summarize_all_leaks_with_llm (src lines 149-208)

The effectful steps — the `client.chat.completions.create` call and
`json.loads` on its text — are modelled by passing their combined outcome in
as a `LlmResponse`.  An exception from either has no handler anywhere in the
module (neither here nor in `main`, src lines 261-296), so it aborts the
process; both abort paths and the `fail(...)` calls are `Except.error`. -/

/-- One object of the parsed JSON array; `none` models an absent key
(Python raises `KeyError`), `some ""` a falsy value (`fail` is called). -/
structure LlmItem where
  summary : Option String
  fix : Option String
deriving DecidableEq

/-- Outcome of the completion call plus `json.loads` on its content. -/
inductive LlmResponse where
  /-- the `client.chat.completions.create` call raised -/
  | apiError : LlmResponse
  /-- the call returned text that `json.loads` rejects -/
  | malformed : LlmResponse
  /-- the call returned text parsing as a JSON array of objects -/
  | parsed : List LlmItem → LlmResponse
deriving DecidableEq

/-- The body of the `for result in response_json` loop (src lines 199-206)
for one item: key lookups, falsiness checks, then the appended pair. -/
def processLlmItem (it : LlmItem) : Except String (String × String) :=
  match it.summary with
  | none => .error "KeyError: summary"
  | some s =>
    match it.fix with
    | none => .error "KeyError: fix"
    | some f =>
      if s = "" then .error "LLM did not return a valid summary."
      else if f = "" then .error "LLM did not return a valid fix."
      else .ok (s, f)

/-- The whole results loop: the first failing item aborts. -/
def processLlmItems : List LlmItem → Except String (List (String × String))
  | [] => .ok []
  | it :: rest =>
    match processLlmItem it with
    | .error e => .error e
    | .ok p =>
      match processLlmItems rest with
      | .error e => .error e
      | .ok ps => .ok (p :: ps)

/-- `summarize_all_leaks_with_llm` (src lines 149-208), with the call
outcome explicit.  `.ok` is the normal return; `.error` is a process abort
(uncaught exception or `fail`). -/
def summarize_all_leaks_with_llm (leaks : List LeakRecord) (resp : LlmResponse) :
    Except String (List (String × String)) :=
  if leaks = [] then .ok []
  else
    match resp with
    | .apiError => .error "unhandled exception: chat.completions.create raised"
    | .malformed => .error "unhandled exception: json.loads raised"
    | .parsed items =>
      if items.length ≠ leaks.length then
        .error "Response len is not the same length as the number of leaks."
      else processLlmItems items

/-- Whether an `Except` is a success. -/
def isOkE {ε α : Type} : Except ε α → Bool
  | .ok _ => true
  | .error _ => false

/-! ### Unfolding lemmas for the loop body -/

theorem save_of_block_nil (ast : String) (st : ParseState) (h : st.current_block = []) :
    save_current_block ast st = st := by
  unfold save_current_block
  simp [h]

theorem save_of_loc_none (ast : String) (st : ParseState) (h : st.current_location = none) :
    save_current_block ast st = st := by
  unfold save_current_block
  simp [h]

theorem save_of_seen (ast : String) (st : ParseState) (f : String) (n c : Nat)
    (hb : st.current_block ≠ []) (hl : st.current_location = some (f, n, c))
    (hs : (f, (n : Int) - 1) ∈ st.seen_lines) :
    save_current_block ast st = st := by
  unfold save_current_block
  simp [hb, hl, hs]

theorem save_of_fresh (ast : String) (st : ParseState) (f : String) (n c : Nat)
    (hb : st.current_block ≠ []) (hl : st.current_location = some (f, n, c))
    (hs : (f, (n : Int) - 1) ∉ st.seen_lines) :
    save_current_block ast st =
      { st with
        seen_lines := (f, (n : Int) - 1) :: st.seen_lines
        leaks := st.leaks ++ [mkLeakEntry ast f n c st.current_block] } := by
  unfold save_current_block
  simp [hb, hl, hs]

theorem stepLine_of_none (ast line : String) (st : ParseState)
    (h : headerMatch line = none) :
    stepLine ast st line =
      if st.current_block = [] then st
      else { st with current_block := st.current_block ++ [line] } := by
  unfold stepLine
  rw [h]

theorem stepLine_of_loc_none (ast line : String) (st : ParseState) (f : String) (n c : Nat)
    (h : headerMatch line = some (f, n, c)) (hl : st.current_location = none) :
    stepLine ast st line =
      { st with current_location := some (f, n, c)
                current_block := st.current_block ++ [line] } := by
  unfold stepLine
  rw [h]
  simp only [hl]

theorem stepLine_of_loc_same (ast line : String) (st : ParseState) (f : String) (n c : Nat)
    (h : headerMatch line = some (f, n, c)) (hl : st.current_location = some (f, n, c)) :
    stepLine ast st line =
      { st with current_location := some (f, n, c)
                current_block := st.current_block ++ [line] } := by
  unfold stepLine
  rw [h]
  simp only [hl, ne_eq, not_true_eq_false, if_false, ite_self]

theorem stepLine_of_loc_diff (ast line : String) (st : ParseState) (f : String) (n c : Nat)
    (loc : String × Nat × Nat) (h : headerMatch line = some (f, n, c))
    (hl : st.current_location = some loc) (hne : (f, n, c) ≠ loc) :
    stepLine ast st line =
      { save_current_block ast st with
        current_location := some (f, n, c)
        current_block := [line] } := by
  unfold stepLine
  rw [h]
  simp only [hl, hne, ne_eq, not_false_eq_true, if_true]
  simp

theorem closeBlock_of_block_nil (st : BlockState) (h : st.current_block = []) :
    closeBlock st = [] := by
  unfold closeBlock
  simp [h]

theorem closeBlock_of_loc_none (st : BlockState) (h : st.current_location = none) :
    closeBlock st = [] := by
  unfold closeBlock
  simp [h]

theorem closeBlock_of_open (st : BlockState) (loc : String × Nat × Nat)
    (hb : st.current_block ≠ []) (hl : st.current_location = some loc) :
    closeBlock st = [(loc, st.current_block)] := by
  unfold closeBlock
  simp [hb, hl]

theorem blockStep_of_none (line : String) (st : BlockState)
    (h : headerMatch line = none) :
    blockStep st line =
      if st.current_block = [] then st
      else { st with current_block := st.current_block ++ [line] } := by
  unfold blockStep
  rw [h]

theorem blockStep_of_loc_none (line : String) (st : BlockState) (f : String) (n c : Nat)
    (h : headerMatch line = some (f, n, c)) (hl : st.current_location = none) :
    blockStep st line =
      { st with current_location := some (f, n, c)
                current_block := st.current_block ++ [line] } := by
  unfold blockStep
  rw [h]
  simp only [hl]

theorem blockStep_of_loc_same (line : String) (st : BlockState) (f : String) (n c : Nat)
    (h : headerMatch line = some (f, n, c)) (hl : st.current_location = some (f, n, c)) :
    blockStep st line =
      { st with current_location := some (f, n, c)
                current_block := st.current_block ++ [line] } := by
  unfold blockStep
  rw [h]
  simp only [hl, ne_eq, not_true_eq_false, if_false, ite_self]

theorem blockStep_of_loc_diff (line : String) (st : BlockState) (f : String) (n c : Nat)
    (loc : String × Nat × Nat) (h : headerMatch line = some (f, n, c))
    (hl : st.current_location = some loc) (hne : (f, n, c) ≠ loc) :
    blockStep st line =
      { closed := st.closed ++ closeBlock st
        current_location := some (f, n, c)
        current_block := [line] } := by
  unfold blockStep
  rw [h]
  simp only [hl, hne, ne_eq, not_false_eq_true, if_true]
  simp

/-! ### Decomposition of the run into blocks

`extract_leaks` is shown equal to: collect all blocks (`blocksFrom`), turn
each into its record, and keep the first record of each dedup key
(`dedupAux`).  This isolates the dedup policy from the grouping. -/

theorem keyOf_mkLeakEntry (ast f : String) (n c : Nat) (blk : List String) :
    keyOf (mkLeakEntry ast f n c blk) = (f, (n : Int) - 1) := rfl

theorem recordOfBlock_def (ast f : String) (n c : Nat) (blk : List String) :
    recordOfBlock ast ((f, n, c), blk) = mkLeakEntry ast f n c blk := rfl

theorem dedupAux_cons (seen : List (String × Int)) (r : LeakRecord)
    (rs : List LeakRecord) :
    dedupAux seen (r :: rs) =
      if keyOf r ∈ seen then dedupAux seen rs
      else r :: dedupAux (keyOf r :: seen) rs := rfl

theorem dedupAux_cons_mem (seen : List (String × Int)) (r : LeakRecord)
    (rs : List LeakRecord) (h : keyOf r ∈ seen) :
    dedupAux seen (r :: rs) = dedupAux seen rs := by
  rw [dedupAux_cons, if_pos h]

theorem dedupAux_cons_not_mem (seen : List (String × Int)) (r : LeakRecord)
    (rs : List LeakRecord) (h : keyOf r ∉ seen) :
    dedupAux seen (r :: rs) = r :: dedupAux (keyOf r :: seen) rs := by
  rw [dedupAux_cons, if_neg h]

theorem blockStep_closed_decomp (line : String) (cs : List ((String × Nat × Nat) × List String))
    (b : List String) (l : Option (String × Nat × Nat)) :
    blockStep ⟨cs, b, l⟩ line =
      ⟨cs ++ (blockStep ⟨[], b, l⟩ line).closed,
       (blockStep ⟨[], b, l⟩ line).current_block,
       (blockStep ⟨[], b, l⟩ line).current_location⟩ := by
  cases hm : headerMatch line with
  | none =>
    rw [blockStep_of_none line ⟨cs, b, l⟩ hm, blockStep_of_none line ⟨[], b, l⟩ hm]
    by_cases hb : b = [] <;> simp [hb]
  | some fnc =>
    obtain ⟨f, n, c⟩ := fnc
    cases l with
    | none =>
      rw [blockStep_of_loc_none line ⟨cs, b, none⟩ f n c hm rfl,
        blockStep_of_loc_none line ⟨[], b, none⟩ f n c hm rfl]
      simp
    | some L =>
      by_cases hne : (f, n, c) = L
      · subst hne
        rw [blockStep_of_loc_same line ⟨cs, b, some (f, n, c)⟩ f n c hm rfl,
          blockStep_of_loc_same line ⟨[], b, some (f, n, c)⟩ f n c hm rfl]
        simp
      · rw [blockStep_of_loc_diff line ⟨cs, b, some L⟩ f n c L hm rfl hne,
          blockStep_of_loc_diff line ⟨[], b, some L⟩ f n c L hm rfl hne]
        have hcb : closeBlock (⟨[], b, some L⟩ : BlockState) =
            closeBlock (⟨cs, b, some L⟩ : BlockState) := rfl
        simp [hcb]

theorem blockStep_foldl_closed (lines : List String) :
    ∀ (cs : List ((String × Nat × Nat) × List String)) (b : List String)
      (l : Option (String × Nat × Nat)),
    lines.foldl blockStep ⟨cs, b, l⟩ =
      ⟨cs ++ (runBlocks lines b l).closed,
       (runBlocks lines b l).current_block,
       (runBlocks lines b l).current_location⟩ := by
  induction lines with
  | nil => intro cs b l; simp [runBlocks]
  | cons line rest ih =>
    intro cs b l
    rw [List.foldl_cons, blockStep_closed_decomp line cs b l]
    rw [ih (cs ++ (blockStep ⟨[], b, l⟩ line).closed)
      (blockStep ⟨[], b, l⟩ line).current_block
      (blockStep ⟨[], b, l⟩ line).current_location]
    have h2 : runBlocks (line :: rest) b l =
        ⟨(blockStep ⟨[], b, l⟩ line).closed ++
            (runBlocks rest (blockStep ⟨[], b, l⟩ line).current_block
              (blockStep ⟨[], b, l⟩ line).current_location).closed,
          (runBlocks rest (blockStep ⟨[], b, l⟩ line).current_block
            (blockStep ⟨[], b, l⟩ line).current_location).current_block,
          (runBlocks rest (blockStep ⟨[], b, l⟩ line).current_block
            (blockStep ⟨[], b, l⟩ line).current_location).current_location⟩ := by
      show rest.foldl blockStep (blockStep ⟨[], b, l⟩ line) = _
      exact ih (blockStep ⟨[], b, l⟩ line).closed
        (blockStep ⟨[], b, l⟩ line).current_block
        (blockStep ⟨[], b, l⟩ line).current_location
    rw [h2]
    simp [List.append_assoc]

theorem runBlocks_cons (line : String) (rest : List String) (b : List String)
    (l : Option (String × Nat × Nat)) :
    runBlocks (line :: rest) b l =
      ⟨(blockStep ⟨[], b, l⟩ line).closed ++
          (runBlocks rest (blockStep ⟨[], b, l⟩ line).current_block
            (blockStep ⟨[], b, l⟩ line).current_location).closed,
        (runBlocks rest (blockStep ⟨[], b, l⟩ line).current_block
          (blockStep ⟨[], b, l⟩ line).current_location).current_block,
        (runBlocks rest (blockStep ⟨[], b, l⟩ line).current_block
          (blockStep ⟨[], b, l⟩ line).current_location).current_location⟩ := by
  show rest.foldl blockStep (blockStep ⟨[], b, l⟩ line) = _
  exact blockStep_foldl_closed rest (blockStep ⟨[], b, l⟩ line).closed
    (blockStep ⟨[], b, l⟩ line).current_block
    (blockStep ⟨[], b, l⟩ line).current_location

theorem blocksFrom_cons (line : String) (rest : List String) (blk : List String)
    (loc : Option (String × Nat × Nat)) :
    blocksFrom (line :: rest) blk loc =
      (blockStep ⟨[], blk, loc⟩ line).closed ++
        blocksFrom rest (blockStep ⟨[], blk, loc⟩ line).current_block
          (blockStep ⟨[], blk, loc⟩ line).current_location := by
  unfold blocksFrom
  rw [runBlocks_cons]
  simp [closeBlock, List.append_assoc]

/-! ### Literal-state forms of the step functions -/

theorem stepLine_lit_none (ast line : String) (leaks : List LeakRecord)
    (seen : List (String × Int)) (blk : List String) (loc : Option (String × Nat × Nat))
    (hm : headerMatch line = none) :
    stepLine ast ⟨leaks, seen, blk, loc⟩ line =
      ⟨leaks, seen, if blk = [] then blk else blk ++ [line], loc⟩ := by
  rw [stepLine_of_none ast line _ hm]
  by_cases hb : blk = [] <;> simp [hb]

theorem stepLine_lit_loc_none (ast line : String) (leaks : List LeakRecord)
    (seen : List (String × Int)) (blk : List String) (f : String) (n c : Nat)
    (hm : headerMatch line = some (f, n, c)) :
    stepLine ast ⟨leaks, seen, blk, none⟩ line =
      ⟨leaks, seen, blk ++ [line], some (f, n, c)⟩ := by
  rw [stepLine_of_loc_none ast line _ f n c hm rfl]

theorem stepLine_lit_loc_same (ast line : String) (leaks : List LeakRecord)
    (seen : List (String × Int)) (blk : List String) (f : String) (n c : Nat)
    (hm : headerMatch line = some (f, n, c)) :
    stepLine ast ⟨leaks, seen, blk, some (f, n, c)⟩ line =
      ⟨leaks, seen, blk ++ [line], some (f, n, c)⟩ := by
  rw [stepLine_of_loc_same ast line _ f n c hm rfl]

theorem blockStep_lit_none (line : String) (cs : List ((String × Nat × Nat) × List String))
    (b : List String) (l : Option (String × Nat × Nat)) (hm : headerMatch line = none) :
    blockStep ⟨cs, b, l⟩ line = ⟨cs, if b = [] then b else b ++ [line], l⟩ := by
  rw [blockStep_of_none line _ hm]
  by_cases hb : b = [] <;> simp [hb]

theorem blockStep_lit_loc_none (line : String) (cs : List ((String × Nat × Nat) × List String))
    (b : List String) (f : String) (n c : Nat) (hm : headerMatch line = some (f, n, c)) :
    blockStep ⟨cs, b, none⟩ line = ⟨cs, b ++ [line], some (f, n, c)⟩ := by
  rw [blockStep_of_loc_none line _ f n c hm rfl]

theorem blockStep_lit_loc_same (line : String) (cs : List ((String × Nat × Nat) × List String))
    (b : List String) (f : String) (n c : Nat) (hm : headerMatch line = some (f, n, c)) :
    blockStep ⟨cs, b, some (f, n, c)⟩ line = ⟨cs, b ++ [line], some (f, n, c)⟩ := by
  rw [blockStep_of_loc_same line _ f n c hm rfl]

theorem blockStep_lit_loc_diff (line : String) (cs : List ((String × Nat × Nat) × List String))
    (b : List String) (f : String) (n c : Nat) (L : String × Nat × Nat)
    (hm : headerMatch line = some (f, n, c)) (hne : (f, n, c) ≠ L) :
    blockStep ⟨cs, b, some L⟩ line =
      ⟨cs ++ (if b = [] then [] else [(L, b)]), [line], some (f, n, c)⟩ := by
  rw [blockStep_of_loc_diff line _ f n c L hm rfl hne]
  by_cases hb : b = []
  · rw [closeBlock_of_block_nil _ hb]
    simp [hb]
  · rw [closeBlock_of_open _ L hb rfl]
    simp [hb]

theorem closeBlock_lit_some (cs : List ((String × Nat × Nat) × List String))
    (b : List String) (L : String × Nat × Nat) :
    closeBlock ⟨cs, b, some L⟩ = if b = [] then [] else [(L, b)] := by
  by_cases hb : b = []
  · rw [closeBlock_of_block_nil _ hb, if_pos hb]
  · rw [closeBlock_of_open _ L hb rfl, if_neg hb]

/-! ### The main decomposition: extract_leaks is dedup of the block records -/

theorem extract_leaks_def (clang ast : String) :
    extract_leaks clang ast =
      (save_current_block ast
        ((splitlines clang).foldl (stepLine ast) ⟨[], [], [], none⟩)).leaks := rfl

theorem extract_leaks_finalState (clang ast : String) :
    extract_leaks clang ast = (save_current_block ast (finalState clang ast)).leaks := rfl

theorem foldl_save_eq_dedup (ast : String) (lines : List String) :
    ∀ (leaks : List LeakRecord) (seen : List (String × Int)) (blk : List String)
      (loc : Option (String × Nat × Nat)),
    (save_current_block ast (lines.foldl (stepLine ast) ⟨leaks, seen, blk, loc⟩)).leaks
      = leaks ++ dedupAux seen ((blocksFrom lines blk loc).map (recordOfBlock ast)) := by
  induction lines with
  | nil =>
    intro leaks seen blk loc
    rw [List.foldl_nil]
    have hbf : blocksFrom [] blk loc = closeBlock ⟨[], blk, loc⟩ := by
      simp [blocksFrom, runBlocks]
    rw [hbf]
    cases loc with
    | none =>
      rw [save_of_loc_none ast _ rfl, closeBlock_of_loc_none _ rfl]
      simp [dedupAux]
    | some L =>
      obtain ⟨f, n, c⟩ := L
      by_cases hb : blk = []
      · subst hb
        rw [save_of_block_nil ast _ rfl, closeBlock_of_block_nil _ rfl]
        simp [dedupAux]
      · rw [closeBlock_of_open ⟨[], blk, some (f, n, c)⟩ (f, n, c) hb rfl]
        by_cases hs : ((f, (n : Int) - 1) : String × Int) ∈ seen
        · rw [save_of_seen ast ⟨leaks, seen, blk, some (f, n, c)⟩ f n c hb rfl hs]
          have hd : dedupAux seen [recordOfBlock ast ((f, n, c), blk)] = [] := by
            rw [recordOfBlock_def, dedupAux_cons_mem seen _ []
              (by rw [keyOf_mkLeakEntry]; exact hs)]
            rfl
          simp [hd]
        · rw [save_of_fresh ast ⟨leaks, seen, blk, some (f, n, c)⟩ f n c hb rfl hs]
          have hd : dedupAux seen [recordOfBlock ast ((f, n, c), blk)] =
              [mkLeakEntry ast f n c blk] := by
            rw [recordOfBlock_def, dedupAux_cons_not_mem seen _ []
              (by rw [keyOf_mkLeakEntry]; exact hs)]
            rfl
          simp [hd]
  | cons line rest ih =>
    intro leaks seen blk loc
    rw [List.foldl_cons, blocksFrom_cons]
    cases hm : headerMatch line with
    | none =>
      rw [stepLine_lit_none ast line leaks seen blk loc hm,
        blockStep_lit_none line [] blk loc hm]
      simpa using ih leaks seen (if blk = [] then blk else blk ++ [line]) loc
    | some fnc =>
      obtain ⟨f, n, c⟩ := fnc
      cases loc with
      | none =>
        rw [stepLine_lit_loc_none ast line leaks seen blk f n c hm,
          blockStep_lit_loc_none line [] blk f n c hm]
        simpa using ih leaks seen (blk ++ [line]) (some (f, n, c))
      | some L =>
        by_cases hne : (f, n, c) = L
        · subst hne
          rw [stepLine_lit_loc_same ast line leaks seen blk f n c hm,
            blockStep_lit_loc_same line [] blk f n c hm]
          simpa using ih leaks seen (blk ++ [line]) (some (f, n, c))
        · rw [stepLine_of_loc_diff ast line ⟨leaks, seen, blk, some L⟩ f n c L hm rfl hne,
            blockStep_lit_loc_diff line [] blk f n c L hm hne]
          by_cases hb : blk = []
          · rw [save_of_block_nil ast ⟨leaks, seen, blk, some L⟩ hb]
            simpa [hb] using ih leaks seen [line] (some (f, n, c))
          · obtain ⟨fL, nL, cL⟩ := L
            by_cases hs : ((fL, (nL : Int) - 1) : String × Int) ∈ seen
            · rw [save_of_seen ast ⟨leaks, seen, blk, some (fL, nL, cL)⟩ fL nL cL hb rfl hs]
              have hd : ∀ rs, dedupAux seen (recordOfBlock ast ((fL, nL, cL), blk) :: rs)
                  = dedupAux seen rs := by
                intro rs
                rw [recordOfBlock_def, dedupAux_cons_mem seen _ rs
                  (by rw [keyOf_mkLeakEntry]; exact hs)]
              simpa [hb, hd] using ih leaks seen [line] (some (f, n, c))
            · rw [save_of_fresh ast ⟨leaks, seen, blk, some (fL, nL, cL)⟩ fL nL cL hb rfl hs]
              have hd : ∀ rs, dedupAux seen (recordOfBlock ast ((fL, nL, cL), blk) :: rs)
                  = mkLeakEntry ast fL nL cL blk ::
                      dedupAux ((fL, (nL : Int) - 1) :: seen) rs := by
                intro rs
                rw [recordOfBlock_def, dedupAux_cons_not_mem seen _ rs
                  (by rw [keyOf_mkLeakEntry]; exact hs), keyOf_mkLeakEntry]
              simpa [hb, hd] using
                ih (leaks ++ [mkLeakEntry ast fL nL cL blk])
                  ((fL, (nL : Int) - 1) :: seen) [line] (some (f, n, c))

theorem extract_leaks_eq_dedup (clang ast : String) :
    extract_leaks clang ast =
      dedupAux [] ((blocksOfLines (splitlines clang)).map (recordOfBlock ast)) := by
  rw [extract_leaks_def]
  simpa [blocksOfLines] using foldl_save_eq_dedup ast (splitlines clang) [] [] [] none

/-! ### Properties of dedupAux -/

theorem dedupAux_key_not_seen (l : List LeakRecord) :
    ∀ seen, ∀ r ∈ dedupAux seen l, keyOf r ∉ seen := by
  induction l with
  | nil => intro seen r hr; simp [dedupAux] at hr
  | cons x xs ih =>
    intro seen r hr
    rw [dedupAux_cons] at hr
    by_cases hx : keyOf x ∈ seen
    · rw [if_pos hx] at hr
      exact ih seen r hr
    · rw [if_neg hx] at hr
      rcases List.mem_cons.mp hr with h | h
      · subst h; exact hx
      · intro hcon
        exact (ih (keyOf x :: seen) r h) (List.mem_cons_of_mem _ hcon)

theorem dedupAux_keys_nodup (l : List LeakRecord) :
    ∀ seen, ((dedupAux seen l).map keyOf).Nodup := by
  induction l with
  | nil => intro seen; simp [dedupAux]
  | cons x xs ih =>
    intro seen
    rw [dedupAux_cons]
    by_cases hx : keyOf x ∈ seen
    · rw [if_pos hx]; exact ih seen
    · rw [if_neg hx]
      rw [List.map_cons]
      refine List.nodup_cons.mpr ⟨?_, ih _⟩
      intro hmem
      obtain ⟨r, hr, hkr⟩ := List.mem_map.mp hmem
      have hn := dedupAux_key_not_seen xs (keyOf x :: seen) r hr
      exact hn (by rw [hkr]; exact List.mem_cons_self _ _)

theorem dedupAux_filter_mem (l : List LeakRecord) :
    ∀ seen k, k ∈ seen →
      (dedupAux seen l).filter (fun r => decide (keyOf r = k)) = [] := by
  induction l with
  | nil => intro seen k hk; rfl
  | cons x xs ih =>
    intro seen k hk
    rw [dedupAux_cons]
    by_cases hx : keyOf x ∈ seen
    · rw [if_pos hx]; exact ih seen k hk
    · rw [if_neg hx]
      have hne : keyOf x ≠ k := fun h => hx (h ▸ hk)
      rw [List.filter_cons]
      simp only [hne, decide_False, decide_eq_true_eq, if_false, ite_false]
      exact ih (keyOf x :: seen) k (List.mem_cons_of_mem _ hk)

theorem dedupAux_filter_not_mem (l : List LeakRecord) :
    ∀ seen k, k ∉ seen →
      (dedupAux seen l).filter (fun r => decide (keyOf r = k)) =
        (l.find? (fun r => decide (keyOf r = k))).toList := by
  induction l with
  | nil => intro seen k hk; rfl
  | cons x xs ih =>
    intro seen k hk
    rw [dedupAux_cons]
    by_cases hx : keyOf x ∈ seen
    · rw [if_pos hx]
      have hne : keyOf x ≠ k := fun h => hk (h ▸ hx)
      rw [List.find?_cons]
      simp only [hne, decide_False, decide_eq_true_eq, if_false, ite_false]
      exact ih seen k hk
    · rw [if_neg hx]
      by_cases hxk : keyOf x = k
      · rw [List.filter_cons, List.find?_cons]
        simp only [hxk, decide_True, if_true, ite_true]
        rw [dedupAux_filter_mem xs (k :: seen) k (List.mem_cons_self k seen)]
        rfl
      · rw [List.filter_cons, List.find?_cons]
        simp only [hxk, decide_False, decide_eq_true_eq, if_false, ite_false]
        refine ih (keyOf x :: seen) k ?_
        intro hck
        rcases List.mem_cons.mp hck with h | h
        · exact hxk h.symm
        · exact hk h

theorem keyOf_recordOfBlock (ast : String) (b : (String × Nat × Nat) × List String) :
    keyOf (recordOfBlock ast b) = blockKey b := by
  obtain ⟨⟨f, n, c⟩, blk⟩ := b
  rfl

/-! ### Insensitivity of everything but ast_context to the AST input -/

/-- Two parse states agree except possibly in `ast_context` fields. -/
def AstRel (st1 st2 : ParseState) : Prop :=
  st1.seen_lines = st2.seen_lines ∧ st1.current_block = st2.current_block ∧
    st1.current_location = st2.current_location ∧
    st1.leaks.map stripAst = st2.leaks.map stripAst

theorem stripAst_mkLeakEntry (a1 a2 f : String) (n c : Nat) (blk : List String) :
    stripAst (mkLeakEntry a1 f n c blk) = stripAst (mkLeakEntry a2 f n c blk) := rfl

theorem save_astRel (a1 a2 : String) (st1 st2 : ParseState) (h : AstRel st1 st2) :
    AstRel (save_current_block a1 st1) (save_current_block a2 st2) := by
  obtain ⟨hs, hb, hl, hm⟩ := h
  by_cases h1 : st1.current_block = []
  · rw [save_of_block_nil a1 st1 h1, save_of_block_nil a2 st2 (hb.symm.trans h1)]
    exact ⟨hs, hb, hl, hm⟩
  · have h2 : st2.current_block ≠ [] := fun hh => h1 (hb.trans hh)
    cases hl1 : st1.current_location with
    | none =>
      rw [save_of_loc_none a1 st1 hl1, save_of_loc_none a2 st2 (hl.symm.trans hl1)]
      exact ⟨hs, hb, hl, hm⟩
    | some L =>
      obtain ⟨f, n, c⟩ := L
      have hl2 : st2.current_location = some (f, n, c) := hl.symm.trans hl1
      by_cases hseen : ((f, (n : Int) - 1) : String × Int) ∈ st1.seen_lines
      · rw [save_of_seen a1 st1 f n c h1 hl1 hseen,
          save_of_seen a2 st2 f n c h2 hl2 (hs ▸ hseen)]
        exact ⟨hs, hb, hl, hm⟩
      · rw [save_of_fresh a1 st1 f n c h1 hl1 hseen,
          save_of_fresh a2 st2 f n c h2 hl2 (hs ▸ hseen)]
        refine ⟨by simp [hs], by simp [hb], by simp [hl], ?_⟩
        simp only [List.map_append, hm, List.map_cons, List.map_nil]
        rw [hb, stripAst_mkLeakEntry a1 a2]

theorem stepLine_astRel (a1 a2 line : String) (st1 st2 : ParseState) (h : AstRel st1 st2) :
    AstRel (stepLine a1 st1 line) (stepLine a2 st2 line) := by
  obtain ⟨hs, hb, hl, hm⟩ := h
  cases hmm : headerMatch line with
  | none =>
    rw [stepLine_of_none a1 line st1 hmm, stepLine_of_none a2 line st2 hmm]
    by_cases h1 : st1.current_block = []
    · rw [if_pos h1, if_pos (hb.symm.trans h1)]
      exact ⟨hs, hb, hl, hm⟩
    · rw [if_neg h1, if_neg (fun hh => h1 (hb.trans hh))]
      exact ⟨by simp [hs], by simp [hb], by simp [hl], by simp [hm]⟩
  | some fnc =>
    obtain ⟨f, n, c⟩ := fnc
    cases hl1 : st1.current_location with
    | none =>
      have hl2 : st2.current_location = none := hl.symm.trans hl1
      rw [stepLine_of_loc_none a1 line st1 f n c hmm hl1,
        stepLine_of_loc_none a2 line st2 f n c hmm hl2]
      exact ⟨by simp [hs], by simp [hb], by simp, by simp [hm]⟩
    | some L =>
      have hl2 : st2.current_location = some L := hl.symm.trans hl1
      by_cases hne : (f, n, c) = L
      · subst hne
        rw [stepLine_of_loc_same a1 line st1 f n c hmm hl1,
          stepLine_of_loc_same a2 line st2 f n c hmm hl2]
        exact ⟨by simp [hs], by simp [hb], by simp, by simp [hm]⟩
      · rw [stepLine_of_loc_diff a1 line st1 f n c L hmm hl1 hne,
          stepLine_of_loc_diff a2 line st2 f n c L hmm hl2 hne]
        obtain ⟨hs', hb', hl', hm'⟩ := save_astRel a1 a2 st1 st2 ⟨hs, hb, hl, hm⟩
        exact ⟨by simp [hs'], by simp, by simp, by simp [hm']⟩

theorem foldl_astRel (a1 a2 : String) (lines : List String) :
    ∀ st1 st2, AstRel st1 st2 →
      AstRel (lines.foldl (stepLine a1) st1) (lines.foldl (stepLine a2) st2) := by
  induction lines with
  | nil => intro st1 st2 h; exact h
  | cons line rest ih =>
    intro st1 st2 h
    rw [List.foldl_cons, List.foldl_cons]
    exact ih _ _ (stepLine_astRel a1 a2 line st1 st2 h)

/-! ### The seen_lines set holds exactly the keys of emitted records -/

/-- Every key in `seen_lines` belongs to an emitted record and conversely. -/
def SeenInv (st : ParseState) : Prop :=
  ∀ k, k ∈ st.seen_lines ↔ ∃ r ∈ st.leaks, keyOf r = k

theorem save_seenInv (ast : String) (st : ParseState) (h : SeenInv st) :
    SeenInv (save_current_block ast st) := by
  by_cases h1 : st.current_block = []
  · rw [save_of_block_nil ast st h1]; exact h
  · cases hl : st.current_location with
    | none => rw [save_of_loc_none ast st hl]; exact h
    | some L =>
      obtain ⟨f, n, c⟩ := L
      by_cases hseen : ((f, (n : Int) - 1) : String × Int) ∈ st.seen_lines
      · rw [save_of_seen ast st f n c h1 hl hseen]; exact h
      · rw [save_of_fresh ast st f n c h1 hl hseen]
        intro k
        constructor
        · intro hk
          rcases List.mem_cons.mp hk with hk | hk
          · exact ⟨mkLeakEntry ast f n c st.current_block, by simp,
              by rw [keyOf_mkLeakEntry]; exact hk.symm⟩
          · obtain ⟨r, hr, hkr⟩ := (h k).mp hk
            exact ⟨r, by simp [hr], hkr⟩
        · rintro ⟨r, hr, hkr⟩
          rcases List.mem_append.mp hr with hr | hr
          · exact List.mem_cons_of_mem _ ((h k).mpr ⟨r, hr, hkr⟩)
          · have he : r = mkLeakEntry ast f n c st.current_block := by simpa using hr
            subst he
            rw [keyOf_mkLeakEntry] at hkr
            rw [← hkr]
            exact List.mem_cons_self _ _

theorem stepLine_seenInv (ast line : String) (st : ParseState) (h : SeenInv st) :
    SeenInv (stepLine ast st line) := by
  cases hmm : headerMatch line with
  | none =>
    rw [stepLine_of_none ast line st hmm]
    by_cases h1 : st.current_block = []
    · rw [if_pos h1]; exact h
    · rw [if_neg h1]; exact h
  | some fnc =>
    obtain ⟨f, n, c⟩ := fnc
    cases hl : st.current_location with
    | none =>
      rw [stepLine_of_loc_none ast line st f n c hmm hl]; exact h
    | some L =>
      by_cases hne : (f, n, c) = L
      · subst hne
        rw [stepLine_of_loc_same ast line st f n c hmm hl]; exact h
      · rw [stepLine_of_loc_diff ast line st f n c L hmm hl hne]
        exact save_seenInv ast st h

theorem foldl_seenInv (ast : String) (lines : List String) :
    ∀ st, SeenInv st → SeenInv (lines.foldl (stepLine ast) st) := by
  induction lines with
  | nil => intro st h; exact h
  | cons line rest ih =>
    intro st h
    rw [List.foldl_cons]
    exact ih _ (stepLine_seenInv ast line st h)

/-! ### Specification of the header matcher -/

theorem ciStarts_suffix (p : List Char) :
    ∀ l r, ciStarts p l = some r → r <:+ l := by
  induction p with
  | nil =>
    intro l r h
    rw [show ciStarts [] l = some l from rfl] at h
    injection h with h
    exact h ▸ List.suffix_refl l
  | cons c cs ih =>
    intro l r h
    cases l with
    | nil => exact absurd h (by simp [ciStarts])
    | cons x xs =>
      rw [show ciStarts (c :: cs) (x :: xs) =
        (if x.toLower = c then ciStarts cs xs else none) from rfl] at h
      by_cases hx : x.toLower = c
      · rw [if_pos hx] at h
        exact (ih xs r h).trans (List.suffix_cons x xs)
      · rw [if_neg hx] at h
        exact absurd h (by simp)

theorem sevMatch_suffix (l r : List Char) (h : sevMatch l = some r) : r <:+ l := by
  unfold sevMatch at h
  cases h1 : ciStarts "warning:".toList l with
  | some r1 =>
    rw [h1] at h
    injection h with h
    exact h ▸ ciStarts_suffix _ l r1 h1
  | none =>
    rw [h1] at h
    cases h2 : ciStarts "note:".toList l with
    | some r2 =>
      rw [h2] at h
      injection h with h
      exact h ▸ ciStarts_suffix _ l r2 h2
    | none =>
      rw [h2] at h
      exact ciStarts_suffix _ l r h

theorem expectDigitsColon_suffix (l : List Char) (n1 : Nat) (r : List Char)
    (h : expectDigitsColon l = some (n1, r)) : r <:+ l := by
  unfold expectDigitsColon at h
  by_cases h1 : l.takeWhile isDigitChar = []
  · rw [if_pos h1] at h; exact absurd h (by simp)
  · rw [if_neg h1] at h
    by_cases h2 : (l.dropWhile isDigitChar).head? = some ':'
    · rw [if_pos h2] at h
      simp only [Option.some.injEq, Prod.mk.injEq] at h
      rw [← h.2]
      exact (List.tail_suffix _).trans (List.dropWhile_suffix _)
    · rw [if_neg h2] at h; exact absurd h (by simp)

theorem expectWsSev_suffix (l r : List Char) (h : expectWsSev l = some r) : r <:+ l := by
  unfold expectWsSev at h
  by_cases h1 : l.takeWhile isSpaceChar = []
  · rw [if_pos h1] at h; exact absurd h (by simp)
  · rw [if_neg h1] at h
    exact (sevMatch_suffix _ _ h).trans (List.dropWhile_suffix _)

theorem restMatch_keyword (l : List Char) (n c : Nat) (h : restMatch l = some (n, c)) :
    ∃ l6, l6 <:+ l ∧ hasKeyword l6 = true := by
  unfold restMatch at h
  cases h1 : expectDigitsColon l with
  | none => simp only [h1] at h; exact absurd h (by simp)
  | some p1 =>
    obtain ⟨n1, l2⟩ := p1
    simp only [h1] at h
    cases h2 : expectDigitsColon l2 with
    | none => simp only [h2] at h; exact absurd h (by simp)
    | some p2 =>
      obtain ⟨n2, l3⟩ := p2
      simp only [h2] at h
      cases h3 : expectWsSev l3 with
      | none => simp only [h3] at h; exact absurd h (by simp)
      | some l5 =>
        simp only [h3] at h
        cases h4 : l5.head? with
        | none => simp only [h4] at h; exact absurd h (by simp)
        | some ch =>
          simp only [h4] at h
          by_cases h5 : (isSpaceChar ch && hasKeyword l5.tail) = true
          · refine ⟨l5.tail, ?_, (Bool.and_eq_true _ _ |>.mp h5).2⟩
            have s1 : l5.tail <:+ l5 := List.tail_suffix l5
            have s2 : l5 <:+ l3 := expectWsSev_suffix l3 l5 h3
            have s3 : l3 <:+ l2 := expectDigitsColon_suffix l2 n2 l3 h2
            have s4 : l2 <:+ l := expectDigitsColon_suffix l n1 l2 h1
            exact ((s1.trans s2).trans s3).trans s4
          · rw [if_neg h5] at h
            exact absurd h (by simp)

theorem findHeaderSplit_cons_colon (acc rest0 : List Char) :
    findHeaderSplit acc (':' :: rest0) =
      match restMatch rest0 with
      | some (n, col) => some (String.mk acc, n, col)
      | none => findHeaderSplit (acc ++ [':']) rest0 := by
  simp [findHeaderSplit]

theorem findHeaderSplit_cons_newline (acc rest0 : List Char) :
    findHeaderSplit acc ('\n' :: rest0) = none := by
  simp [findHeaderSplit]

theorem findHeaderSplit_cons_other (acc : List Char) (ch : Char) (rest0 : List Char)
    (hc : ch ≠ ':') (hn : ch ≠ '\n') :
    findHeaderSplit acc (ch :: rest0) = findHeaderSplit (acc ++ [ch]) rest0 := by
  simp [findHeaderSplit, hc, hn]

theorem findHeaderSplit_spec (l : List Char) :
    ∀ (acc : List Char) (f : String) (n c : Nat), findHeaderSplit acc l = some (f, n, c) →
      ∃ mid rest, l = mid ++ ':' :: rest ∧ f.data = acc ++ mid ∧
        restMatch rest = some (n, c) ∧
        ∀ pre post, l = pre ++ ':' :: post → pre.length < mid.length →
          restMatch post = none := by
  induction l with
  | nil => intro acc f n c h; exact absurd h (by simp [findHeaderSplit])
  | cons ch rest0 ih =>
    intro acc f n c h
    by_cases hc : ch = ':'
    · subst hc
      rw [findHeaderSplit_cons_colon] at h
      cases hr : restMatch rest0 with
      | some p =>
        obtain ⟨n0, c0⟩ := p
        simp only [hr] at h
        obtain ⟨hf, hn0, hc0⟩ : String.mk acc = f ∧ n0 = n ∧ c0 = c := by
          simpa using h
        refine ⟨[], rest0, rfl, ?_, ?_, ?_⟩
        · rw [← hf]; simp
        · rw [hr, hn0, hc0]
        · intro pre post hpre hlen
          exact absurd hlen (by simp)
      | none =>
        simp only [hr] at h
        obtain ⟨mid', rest', heq, hf, hrm, hmin⟩ := ih (acc ++ [':']) f n c h
        refine ⟨':' :: mid', rest', by rw [heq, List.cons_append], by rw [hf]; simp, hrm, ?_⟩
        intro pre post hpre hlen
        cases pre with
        | nil =>
          simp only [List.nil_append] at hpre
          injection hpre with _ h2
          rw [← h2]; exact hr
        | cons p ps =>
          injection hpre with hp hrest
          exact hmin ps post hrest (by simpa using hlen)
    · by_cases hn2 : ch = '\n'
      · subst hn2
        rw [findHeaderSplit_cons_newline] at h
        exact absurd h (by simp)
      · rw [findHeaderSplit_cons_other acc ch rest0 hc hn2] at h
        obtain ⟨mid', rest', heq, hf, hrm, hmin⟩ := ih (acc ++ [ch]) f n c h
        refine ⟨ch :: mid', rest', by rw [heq, List.cons_append], by rw [hf]; simp, hrm, ?_⟩
        intro pre post hpre hlen
        cases pre with
        | nil =>
          simp only [List.nil_append] at hpre
          injection hpre with h1 _
          exact absurd h1 hc
        | cons p ps =>
          injection hpre with hp hrest
          exact hmin ps post hrest (by simpa using hlen)

theorem infixCheck_isInfix (nd : List Char) : ∀ l, infixCheck nd l = true → nd <:+: l := by
  intro l
  induction l with
  | nil =>
    intro h
    have : nd = [] := by simpa [infixCheck] using h
    rw [this]
  | cons c cs ih =>
    intro h
    rcases (by simpa [infixCheck] using h : nd <+: c :: cs ∨ infixCheck nd cs = true) with h1 | h1
    · exact h1.isInfix
    · exact List.infix_cons (ih h1)

theorem hasKeyword_spec (l : List Char) (h : hasKeyword l = true) :
    ∃ kw ∈ keywordPatterns, kw <:+: toLowerList l := by
  unfold hasKeyword at h
  obtain ⟨kw, hkw, hc⟩ := List.any_eq_true.mp h
  refine ⟨kw, hkw, ?_⟩
  have h1 := infixCheck_isInfix kw _ hc
  have h2 : toLowerList (l.takeWhile (· != '\n')) <+: toLowerList l :=
    (List.takeWhile_prefix _).map Char.toLower
  exact h1.trans h2.isInfix

/-- Every line the pattern matches contains one of the four keywords,
case-insensitively. -/
theorem headerMatch_keyword (s f : String) (n c : Nat)
    (h : headerMatch s = some (f, n, c)) :
    ∃ kw ∈ keywordPatterns, kw <:+: toLowerList s.data := by
  obtain ⟨mid, rest, heq, hf, hrm, hmin⟩ := findHeaderSplit_spec s.data [] f n c h
  obtain ⟨l6, hsuf, hkw⟩ := restMatch_keyword rest n c hrm
  obtain ⟨kw, hmem, hinf⟩ := hasKeyword_spec l6 hkw
  refine ⟨kw, hmem, ?_⟩
  have h1 : rest <:+ s.data := by
    rw [heq]
    exact ⟨mid ++ [':'], by simp⟩
  have h2 : l6 <:+ s.data := hsuf.trans h1
  exact hinf.trans ((h2.map Char.toLower).isInfix)


/-! ## Claim theorems -/

/-- A concrete record used as input to the summariser theorems. -/
def sampleLeak : LeakRecord :=
  { filename := "a.c", lnum := 9, col := 2,
    raw_message := "a.c:10:3: warning: potential memory leak for \x27buf\x27",
    var_name := "buf", ast_context := "No AST context" }

/-- C1: within one parsing run of `extract_leaks`, no two emitted records
share the same `(file, zero-based line)` key; and for every key, the emitted
records with that key are exactly the record of the first block carrying it
— so several blocks at the same file and 1-based line (even with different
columns, anywhere in the stream) yield exactly one record, the one from the
first such block encountered. -/
theorem C1_dedup_first_block_wins (clang ast : String) :
    (((extract_leaks clang ast).map keyOf).Nodup) ∧
    ∀ k : String × Int,
      (extract_leaks clang ast).filter (fun r => decide (keyOf r = k)) =
        (((blocksOfLines (splitlines clang)).find? (fun b => decide (blockKey b = k))).map
          (recordOfBlock ast)).toList := by
  constructor
  · rw [extract_leaks_eq_dedup]
    exact dedupAux_keys_nodup _ []
  · intro k
    rw [extract_leaks_eq_dedup]
    rw [dedupAux_filter_not_mem _ [] k (by simp)]
    rw [List.find?_map]
    have hp : ((fun r => decide (keyOf r = k)) ∘ (recordOfBlock ast)) =
        (fun b => decide (blockKey b = k)) := by
      funext b
      simp [Function.comp, keyOf_recordOfBlock]
    rw [hp]

/-- C2: on the spec's three-line scenario, `extract_leaks` emits exactly two
records: `("a.c", 9, 2, "buf")` whose raw_message is the first two lines
joined by a newline, and `("a.c", 21, 0, "ptr")`. -/
theorem C2_concrete_scenario :
    (extract_leaks "a.c:10:3: warning: potential memory leak for \x27buf\x27\na.c:10:3: note: allocated here via \x27malloc\x27\na.c:22:1: warning: use of freed memory for \x27ptr\x27" "").map
      (fun r => (r.filename, r.lnum, r.col, r.var_name, r.raw_message)) =
    [("a.c", 9, 2, "buf",
      "a.c:10:3: warning: potential memory leak for \x27buf\x27\na.c:10:3: note: allocated here via \x27malloc\x27"),
     ("a.c", 21, 0, "ptr", "a.c:22:1: warning: use of freed memory for \x27ptr\x27")] := by
  decide

/-- C3: for every input stream that ends while a block is still open — the
loop's final state has a non-empty `current_block` at location `(f, n, c)` —
`extract_leaks` still runs the close-and-emit procedure on that final block:
when the block's dedup key is fresh, the output is exactly the records
accumulated so far plus the flushed record of the final block; and in every
case the stream yields a record for that header's file and zero-based line,
since the dedup check can only suppress the flush when a record with the
same key was already emitted. -/
theorem C3_final_flush (clang ast f : String) (n c : Nat)
    (hopen : (finalState clang ast).current_location = some (f, n, c))
    (hblk : (finalState clang ast).current_block ≠ []) :
    (((f, (n : Int) - 1) : String × Int) ∉ (finalState clang ast).seen_lines →
      extract_leaks clang ast =
        (finalState clang ast).leaks ++
          [mkLeakEntry ast f n c (finalState clang ast).current_block]) ∧
    ∃ r ∈ extract_leaks clang ast, r.filename = f ∧ r.lnum = (n : Int) - 1 := by
  have hinv : SeenInv (finalState clang ast) :=
    foldl_seenInv ast (splitlines clang) ⟨[], [], [], none⟩ (fun k => by simp)
  constructor
  · intro hfresh
    rw [extract_leaks_finalState, save_of_fresh ast _ f n c hblk hopen hfresh]
  · rw [extract_leaks_finalState]
    by_cases hseen : ((f, (n : Int) - 1) : String × Int) ∈ (finalState clang ast).seen_lines
    · rw [save_of_seen ast _ f n c hblk hopen hseen]
      obtain ⟨r, hr, hkr⟩ := (hinv _).mp hseen
      exact ⟨r, hr, congrArg Prod.fst hkr, congrArg Prod.snd hkr⟩
    · rw [save_of_fresh ast _ f n c hblk hopen hseen]
      exact ⟨mkLeakEntry ast f n c (finalState clang ast).current_block, by simp, rfl, rfl⟩

/-- Witness for C3: a stream whose last line is a trailing continuation
(note) line, so the stream ends with the block for the preceding header
still open; the output contains the record for that header. -/
theorem C3_final_flush_witness :
    ∃ r ∈ extract_leaks "a.c:5:2: warning: memory leak\n  note: allocated here" "",
      r.filename = "a.c" ∧ r.lnum = ((5 : Nat) : Int) - 1 :=
  (C3_final_flush "a.c:5:2: warning: memory leak\n  note: allocated here" "" "a.c" 5 2
    (by decide) (by decide)).2

/-- C4 counterexample: the claim says a header-shaped line whose line number
is 0 is classified as no match and never produces a record; but `\d+`
accepts "0", so the line matches and a record with lnum = -1 is emitted. -/
theorem C4_counterexample :
    headerMatch "a.c:0:3: warning: memory leak" = some ("a.c", 0, 3) ∧
    (extract_leaks "a.c:0:3: warning: memory leak" "").map
      (fun r => (r.filename, r.lnum, r.col)) = [("a.c", -1, 2)] := by
  decide

/-- C4 amended: `<line>` and `<col>` must be non-empty digit runs — zero
included.  A zero line number matches, opens a block and yields a record
with lnum = -1, col = 2; non-numeric fields (`ten`, `-1`) yield no match,
not an error. -/
theorem C4_amended_digit_runs :
    headerMatch "a.c:0:3: warning: memory leak" = some ("a.c", 0, 3) ∧
    headerMatch "a.c:ten:3: warning: memory leak" = none ∧
    headerMatch "a.c:-1:3: warning: memory leak" = none ∧
    (extract_leaks "a.c:0:3: warning: memory leak" "").map
      (fun r => (r.filename, r.lnum, r.col)) = [("a.c", -1, 2)] := by
  decide

/-- C5: the keyword gate.  Every line the classifier matches contains one of
{leak, malloc, free, memory} case-insensitively; and a header-shaped line
without a keyword yields no record and opens no block, so a following
note-style line attaches to nothing and the run emits no record at all. -/
theorem C5_keyword_gate :
    (∀ (s f : String) (n c : Nat), headerMatch s = some (f, n, c) →
      ∃ kw ∈ keywordPatterns, kw <:+: toLowerList s.data) ∧
    extract_leaks
      "a.c:3:1: warning: unused variable \x27x\x27\na.c:3:1: note: declared here" "" = [] := by
  exact ⟨fun s f n c h => headerMatch_keyword s f n c h, by decide⟩

/-- Witness for C5 at a concrete matching line. -/
theorem C5_keyword_gate_witness :
    ∃ kw ∈ keywordPatterns,
      kw <:+: toLowerList (String.data "a.c:1:1: warning: memory leak") :=
  C5_keyword_gate.1 "a.c:1:1: warning: memory leak" "a.c" 1 1 (by decide)

/-- C6: `extract_var_name` tries the quoted-name, declaration-with-allocation
and generic-assignment strategies in this order, returns the first capture
of the first strategy that matches, and the literal "unknown" when none
match; in particular the spec's fallback example yields "unknown". -/
theorem C6_var_name_strategies :
    (∀ msg : String, extract_var_name msg =
      ((matchQuoted msg).orElse fun _ =>
        (matchAllocDecl msg).orElse fun _ => matchAssign msg).getD "unknown") ∧
    extract_var_name "unrelated text with no quotes or assignment" = "unknown" ∧
    extract_var_name "note: use of \x27buf\x27 after free; buf = tmp" = "buf" ∧
    extract_var_name "int * p = malloc(10); q = r" = "p" ∧
    extract_var_name "x = y" = "x" := by
  refine ⟨?_, by decide, by decide, by decide, by decide⟩
  intro msg
  cases h1 : matchQuoted msg <;> cases h2 : matchAllocDecl msg <;>
    cases h3 : matchAssign msg <;>
    simp [extract_var_name, firstSome, var_name_patterns, h1, h2, h3, Option.orElse]

/-- C7 counterexample: the claim predicts the file capture ends at the FIRST
occurrence of `:<digits>:<digits>:` — for "a:1:2:3:4: warning: memory leak"
that occurrence follows "a", so the file would be "a"; the code instead
captures "a:1:2" (with line 3 and column 4), because the non-greedy prefix
only stops at a colon whose whole tail matches the rest of the pattern. -/
theorem C7_counterexample :
    headerMatch "a:1:2:3:4: warning: memory leak" = some ("a:1:2", 3, 4) ∧
    String.data "a:1:2:3:4: warning: memory leak" =
      String.data "a" ++ ':' :: String.data "1:2:3:4: warning: memory leak" ∧
    ("a:1:2" : String) ≠ "a" := by
  decide

/-- C7 amended: the extracted file is the shortest prefix ending just before
the first colon whose tail matches `<digits>:<digits>: <severity>: <text
with keyword>` — i.e. the split is at the first occurrence of
`:<digits>:<digits>:` THAT IS FOLLOWED BY a valid severity-and-keyword tail,
which may be later than the first `:<digits>:<digits>:` occurrence. -/
theorem C7_amended_first_valid_split (s f : String) (n c : Nat)
    (h : headerMatch s = some (f, n, c)) :
    s.data = f.data ++ ':' :: s.data.drop (f.data.length + 1) ∧
    restMatch (s.data.drop (f.data.length + 1)) = some (n, c) ∧
    ∀ i, i < f.data.length → s.data.get? i = some ':' →
      restMatch (s.data.drop (i + 1)) = none := by
  obtain ⟨mid, rest, heq, hf, hrm, hmin⟩ := findHeaderSplit_spec s.data [] f n c h
  have hmid : mid = f.data := by simpa using hf.symm
  subst hmid
  have hdrop : s.data.drop (f.data.length + 1) = rest := by
    have h1 : s.data = (f.data ++ [':']) ++ rest := by rw [heq]; simp
    have h2 : f.data.length + 1 = (f.data ++ [':']).length := by simp
    rw [h1, h2, List.drop_left]
  refine ⟨by rw [hdrop]; exact heq, by rw [hdrop]; exact hrm, ?_⟩
  intro i hi hget
  have hlen : i < s.data.length := by
    have h5 : s.data.length = f.data.length + 1 + rest.length := by
      rw [heq]
      simp [List.length_append]
      omega
    omega
  have hdeci : s.data = s.data.take i ++ ':' :: s.data.drop (i + 1) := by
    conv_lhs => rw [← List.take_append_drop i s.data]
    congr 1
    rw [List.drop_eq_getElem_cons hlen]
    congr 1
    have hg := hget
    rw [List.get?_eq_getElem?] at hg
    obtain ⟨h1, h2⟩ := List.getElem?_eq_some.mp hg
    exact h2
  refine hmin (s.data.take i) (s.data.drop (i + 1)) hdeci ?_
  rw [List.length_take]
  exact lt_of_le_of_lt (min_le_left _ _) hi

/-- Witness for the amended C7 at the counterexample line: the split lands
after "a:1:2", and the tail there matches with line 3, column 4. -/
theorem C7_amended_witness :
    String.data "a:1:2:3:4: warning: memory leak" =
      String.data "a:1:2" ++ ':' ::
        (String.data "a:1:2:3:4: warning: memory leak").drop
          ((String.data "a:1:2").length + 1) ∧
    restMatch ((String.data "a:1:2:3:4: warning: memory leak").drop
      ((String.data "a:1:2").length + 1)) = some (3, 4) :=
  ⟨(C7_amended_first_valid_split "a:1:2:3:4: warning: memory leak" "a:1:2" 3 4 (by decide)).1,
   (C7_amended_first_valid_split "a:1:2:3:4: warning: memory leak" "a:1:2" 3 4 (by decide)).2.1⟩

/-- C8: the AST input is a pure annotation — for any clang output and any
two AST-dump inputs, `extract_leaks` produces the same records in the same
order on every field except possibly `ast_context`. -/
theorem C8_ast_pure_annotation (clang a1 a2 : String) :
    (extract_leaks clang a1).map stripAst = (extract_leaks clang a2).map stripAst := by
  rw [extract_leaks_def, extract_leaks_def]
  have h := foldl_astRel a1 a2 (splitlines clang) ⟨[], [], [], none⟩ ⟨[], [], [], none⟩
    ⟨rfl, rfl, rfl, rfl⟩
  exact (save_astRel a1 a2 _ _ h).2.2.2

/-- C9 counterexample: with one leak and a failing or malformed response,
the summariser aborts (the exception is unhandled); no structured output
with a truncated raw_message is produced, contrary to the claim. -/
theorem C9_counterexample :
    isOkE (summarize_all_leaks_with_llm [sampleLeak] LlmResponse.apiError) = false ∧
    isOkE (summarize_all_leaks_with_llm [sampleLeak] LlmResponse.malformed) = false := by
  decide

/-- C9 amended: for a non-empty leak list, an API exception or malformed
JSON aborts the run (the exception propagates uncaught), and a batch-count
mismatch aborts via fail; there is no local truncation fallback and no
structured output on any failure path. -/
theorem C9_amended_failures_abort (leaks : List LeakRecord) (h : leaks ≠ []) :
    (∃ e, summarize_all_leaks_with_llm leaks LlmResponse.apiError = Except.error e) ∧
    (∃ e, summarize_all_leaks_with_llm leaks LlmResponse.malformed = Except.error e) ∧
    ∀ items : List LlmItem, items.length ≠ leaks.length →
      ∃ e, summarize_all_leaks_with_llm leaks (LlmResponse.parsed items) = Except.error e := by
  refine ⟨⟨"unhandled exception: chat.completions.create raised", ?_⟩,
    ⟨"unhandled exception: json.loads raised", ?_⟩, ?_⟩
  · simp [summarize_all_leaks_with_llm, h]
  · simp [summarize_all_leaks_with_llm, h]
  · intro items hlen
    exact ⟨"Response len is not the same length as the number of leaks.",
      by simp [summarize_all_leaks_with_llm, h, hlen]⟩

/-- Witness for the amended C9 at a concrete one-record list. -/
theorem C9_amended_witness :
    ∃ e, summarize_all_leaks_with_llm [sampleLeak] LlmResponse.apiError =
      Except.error e :=
  (C9_amended_failures_abort [sampleLeak] (by decide)).1

/-- C10: the severity token is matched case-insensitively (the compiled
pattern carries IGNORECASE): upper- and mixed-case severities are classified
as headers and open blocks that produce records. -/
theorem C10_severity_case_insensitive :
    headerMatch "a.c:1:1: WARNING: memory leak" = some ("a.c", 1, 1) ∧
    headerMatch "b.c:2:5: Note: allocated via malloc" = some ("b.c", 2, 5) ∧
    headerMatch "c.c:3:7: ERROR: double free detected" = some ("c.c", 3, 7) ∧
    (extract_leaks "a.c:1:1: WARNING: memory leak" "").map
      (fun r => (r.filename, r.lnum, r.col)) = [("a.c", 0, 0)] := by
  decide

end Cleakr
